import Mathlib

/-!
Verification development for the dsf_backend_adk repository.

This file shallowly embeds the tool functions of
src/agents/scheduler/scheduler.py and src/agents/talkative/talkative.py
and proves properties about them.

Modelling conventions:
* Python strings are Lean `String` (a structure over `List Char`); Python
  string comparison (lexicographic by code point) is the `<` of `List Char`
  underlying the `String` order.
* Reads from external sources (BigQuery result sets, JSON files, the YAML
  FAQ file) are passed in explicitly; a read that raises an exception is an
  `Except.error` argument carrying the exception text.
* The module-level caches are explicit state values threaded through calls.
* Python float arithmetic on similarity ratios is modelled with exact
  rationals; the float literal 0.6 is the rational 3/5.
* Python str.strip and str.lower are modelled for the ASCII character range
  by dropWhile-whitespace and Char.toLower.
-/

set_option maxHeartbeats 1000000

namespace DSF

/-- Python string comparison: lexicographic by code point, i.e. the
ordering of the underlying character lists. -/
def strLt (s t : String) : Prop :=
  s.data < t.data

instance (s t : String) : Decidable (strLt s t) := by
  unfold strLt
  infer_instance

/-- The corresponding non-strict comparison, used to model sorted. -/
def strLe (s t : String) : Prop :=
  ¬ strLt t s

instance (s t : String) : Decidable (strLe s t) := by
  unfold strLe
  infer_instance

/-- Python str.strip on a character list: remove leading and trailing
whitespace. -/
def pyStrip (l : List Char) : List Char :=
  ((l.dropWhile Char.isWhitespace).reverse.dropWhile Char.isWhitespace).reverse

/-- Python str.lower on a character list (ASCII range). -/
def pyLower (l : List Char) : List Char :=
  l.map Char.toLower

/-- Composition question.strip().lower() as used by the talkative agent and
load_faqs, lifted back to String. -/
def pyNormalize (s : String) : String :=
  String.mk (pyLower (pyStrip s.data))

/-- Python str.capitalize (ASCII range): first character upper-cased, the
rest lower-cased.  Used by build_schedule on each avoid_days entry. -/
def pyCapitalize (s : String) : String :=
  match s.data with
  | [] => ""
  | c :: rest => String.mk (c.toUpper :: rest.map Char.toLower)

/-- Python str.split on the separator character, as in s.split(
comma): splitting the empty string yields one empty piece. -/
def splitComma (l : List Char) : List (List Char) :=
  l.foldr
    (fun c acc =>
      match acc with
      | cur :: rest => if c = ',' then [] :: cur :: rest else (c :: cur) :: rest
      | [] => [[c]])
    [[]]

/-- Python int(s) for optionally signed ASCII decimal strings: surrounding
whitespace is stripped, then an optional sign followed by one or more
digits is accepted; anything else raises ValueError, modelled as none. -/
def pyParseInt (s : String) : Option Int :=
  let t := pyStrip s.data
  let (sign, digits) :=
    match t with
    | '-' :: rest => ((-1 : Int), rest)
    | '+' :: rest => ((1 : Int), rest)
    | _ => ((1 : Int), t)
  if digits ≠ [] ∧ digits.all Char.isDigit then
    some (sign * (digits.foldl (fun acc c => acc * 10 + (c.toNat - 48)) (0 : Nat) : Nat))
  else
    none

/-! ### difflib model

CPython difflib.SequenceMatcher as called by difflib.get_close_matches in
src/agents/talkative/talkative.py: no isjunk predicate is given, so bjunk
stays empty, and autojunk is on, so building the b2j index purges the
popular characters of the second sequence b (the matched word) whenever b
has at least 200 characters.
-/

/-- Length of the common prefix of two character lists; the length of the
matching run starting at a given pair of positions. -/
def commonPrefixLen : List Char → List Char → Nat
  | x :: xs, y :: ys => if x = y then commonPrefixLen xs ys + 1 else 0
  | _, _ => 0

/-- Length of the common suffix of two character lists; the distance the
left extension loop of find_longest_match moves the block start. -/
def commonSuffixLen (xs ys : List Char) : Nat :=
  commonPrefixLen xs.reverse ys.reverse

/-- The autojunk popular-character set computed by __chain_b: when b has
at least 200 characters, every character occurring more than
b.length / 100 + 1 times is purged from the b2j index.  Purged characters
go into bpopular, not bjunk, so the dynamic program cannot see them but
the not-isbjunk extension loops still match them. -/
def bPopular (b : List Char) : List Char :=
  if 200 ≤ b.length then b.dedup.filter (fun c => b.length / 100 + 1 < b.count c) else []

/-- Restricted common run length: the matching run visible to the b2j
dynamic program, each of whose links requires the character to be outside
the purged popular set. -/
def rcpl (bpop : List Char) : List Char → List Char → Nat
  | x :: xs, y :: ys => if x = y ∧ ¬ y ∈ bpop then rcpl bpop xs ys + 1 else 0
  | _, _ => 0

/-- One step of the find_longest_match scan over the purged index: a
candidate start pair p is measured by its restricted run and replaces the
best triple (i, j, size) only when strictly longer, which keeps the
earliest maximal junk-free block exactly as the CPython dynamic program
does. -/
def flmStep (bpop a b : List Char) (best : Nat × Nat × Nat) (p : Nat × Nat) : Nat × Nat × Nat :=
  if best.2.2 < rcpl bpop (a.drop p.1) (b.drop p.2) then
    (p.1, p.2, rcpl bpop (a.drop p.1) (b.drop p.2))
  else best

/-- All start pairs scanned by find_longest_match, in the order (i outer,
j inner) of the CPython loop. -/
def flmPairs (a b : List Char) : List (Nat × Nat) :=
  (List.range a.length).flatMap fun i => (List.range b.length).map fun j => (i, j)

/-- The dynamic-program phase of find_longest_match: the longest matching
block visible through the purged index, earliest in a then earliest in b;
(0, 0, 0) when nothing is visible. -/
def flmCore (bpop a b : List Char) : Nat × Nat × Nat :=
  (flmPairs a b).foldl (flmStep bpop a b) (0, 0, 0)

/-- The extension loops of find_longest_match in the isjunk-is-None case:
bjunk is empty, so the not-isbjunk guards always hold and the first two
loops greedily extend the (possibly empty) best block over any matching
characters, popular ones included, first leftwards and then rightwards
from the unchanged right end; the last two loops, which extend over junk
proper, never run. -/
def extendMatch (a b : List Char) (t : Nat × Nat × Nat) : Nat × Nat × Nat :=
  (t.1 - commonSuffixLen (a.take t.1) (b.take t.2.1),
    t.2.1 - commonSuffixLen (a.take t.1) (b.take t.2.1),
    t.2.2 + commonSuffixLen (a.take t.1) (b.take t.2.1)
      + commonPrefixLen (a.drop (t.1 + t.2.2)) (b.drop (t.2.1 + t.2.2)))

/-- SequenceMatcher.find_longest_match over the whole ranges as used by
get_close_matches: the purged dynamic program followed by the greedy
extensions, returned as (start in a, start in b, size). -/
def findLongestMatch (bpop a b : List Char) : Nat × Nat × Nat :=
  extendMatch a b (flmCore bpop a b)

/-- Total size of all matching blocks of get_matching_blocks: the longest
block is found and the two remaining sides are processed recursively,
against the one popular set computed from the whole of b.  The fuel
argument bounds the recursion depth; fuel at least the length of the
first sequence is always sufficient because each recursive call strictly
shortens it. -/
def matchTotalF (bpop : List Char) : Nat → List Char → List Char → Nat
  | 0, _, _ => 0
  | fuel + 1, a, b =>
    if (findLongestMatch bpop a b).2.2 = 0 then 0
    else
      (findLongestMatch bpop a b).2.2
        + matchTotalF bpop fuel (a.take (findLongestMatch bpop a b).1)
            (b.take (findLongestMatch bpop a b).2.1)
        + matchTotalF bpop fuel
            (a.drop ((findLongestMatch bpop a b).1 + (findLongestMatch bpop a b).2.2))
            (b.drop ((findLongestMatch bpop a b).2.1 + (findLongestMatch bpop a b).2.2))

/-- Total matched size M used by SequenceMatcher.ratio, with the popular
set computed once from b exactly as set_seq2 does. -/
def matchTotal (a b : List Char) : Nat :=
  matchTotalF (bPopular b) a.length a b

/-- difflib._calculate_ratio: 2M / T, and 1 when both sequences are
empty. -/
def calcRatioQ (m t : Nat) : ℚ :=
  if t ≠ 0 then 2 * (m : ℚ) / (t : ℚ) else 1

/-- SequenceMatcher.ratio. -/
def ratioQ (a b : List Char) : ℚ :=
  calcRatioQ (matchTotal a b) (a.length + b.length)

/-- The matches count of SequenceMatcher.quick_ratio: how many characters
of a can be consumed from the multiset of characters of b, which is the
length of the bag intersection. -/
def quickMatches (a b : List Char) : Nat :=
  (a.bagInter b).length

/-- SequenceMatcher.quick_ratio. -/
def quickRatioQ (a b : List Char) : ℚ :=
  calcRatioQ (quickMatches a b) (a.length + b.length)

/-- SequenceMatcher.real_quick_ratio. -/
def realQuickRatioQ (a b : List Char) : ℚ :=
  calcRatioQ (min a.length b.length) (a.length + b.length)

/-- ratio between two Lean strings, stored question first as in
get_close_matches (set_seq1 is the candidate, set_seq2 the word). -/
def ratioS (x w : String) : ℚ :=
  ratioQ x.data w.data

/-- The cutoff 0.6 passed by get_faq_answer. -/
def faqCutoff : ℚ := 3 / 5

/-- The filter of difflib.get_close_matches: a possibility x is kept when
its real_quick_ratio, quick_ratio and ratio against the word all reach the
cutoff; the kept element is paired with its ratio, as in the CPython list
of (ratio, x) tuples. -/
def scoreCandidates (word : String) (possibilities : List String) : List (ℚ × String) :=
  possibilities.filterMap fun x =>
    if faqCutoff ≤ realQuickRatioQ x.data word.data ∧
        faqCutoff ≤ quickRatioQ x.data word.data ∧
        faqCutoff ≤ ratioQ x.data word.data then
      some (ratioQ x.data word.data, x)
    else
      none

/-- Python comparison of (float, str) tuples: by score, then by string. -/
def pairLt (p q : ℚ × String) : Prop :=
  p.1 < q.1 ∨ (p.1 = q.1 ∧ strLt p.2 q.2)

instance (p q : ℚ × String) : Decidable (pairLt p q) := by
  unfold pairLt
  infer_instance

/-- The reflexive closure of the tuple comparison, used to state that the
returned match dominates every candidate. -/
def pairLe (p q : ℚ × String) : Prop :=
  p = q ∨ pairLt p q

/-- heapq.nlargest(1, result) on the scored tuples: the maximum tuple under
Python tuple comparison (none when the list is empty).  The accumulator is
replaced only on strictly greater, matching the stability of sorted. -/
def pickBest : List (ℚ × String) → Option (ℚ × String)
  | [] => none
  | p :: rest => some (rest.foldl (fun b q => if pairLt b q then q else b) p)

/-- difflib.get_close_matches(word, possibilities, n = 1, cutoff = 0.6),
returning just the single best match when any candidate clears the
cutoff. -/
def getCloseMatches1 (word : String) (possibilities : List String) : Option String :=
  (pickBest (scoreCandidates word possibilities)).map Prod.snd

/-! ### talkative.py -/

/-- One Python dict insertion: an existing key keeps its position and gets
the new value, a new key is appended. -/
def dictInsert (d : List (String × String)) (k v : String) : List (String × String) :=
  if d.any fun p => p.1 = k then
    d.map fun p => if p.1 = k then (k, v) else p
  else
    d ++ [(k, v)]

/-- Python dict lookup returning the value stored at the key. -/
def dictGet (d : List (String × String)) (k : String) : Option String :=
  (d.find? fun p => p.1 == k).map Prod.snd

/-- load_faqs: the YAML read yields the list of (question, answer) items or
raises; the dict maps each normalized question to its answer.  load_faqs
has no exception handler, so a failed read propagates unchanged. -/
def load_faqs (readFaqs : Except String (List (String × String))) :
    Except String (List (String × String)) :=
  match readFaqs with
  | .ok data => .ok (data.foldl (fun d item => dictInsert d (pyNormalize item.1) item.2) [])
  | .error e => .error e

/-- Result dict of get_faq_answer: the success dict has keys status and
answer, the error dict has keys status and error_message; an absent key is
none. -/
structure FaqResult where
  status : String
  answer : Option String
  error_message : Option String
deriving DecidableEq

/-- The fixed fallback text of the error branch of get_faq_answer. -/
def faqFallback : String :=
  "I\x27m sorry, I don\x27t have an answer to that question yet. Please try rephrasing or contact your academic advisor."

/-- get_faq_answer: normalize the question, run get_close_matches against
the stored (already normalized) questions with n = 1 and cutoff 0.6, and
answer from the dict on a match, else return the fallback error dict. -/
def get_faq_answer (faq_responses : List (String × String)) (question : String) : FaqResult :=
  let q := pyNormalize question
  match getCloseMatches1 q (faq_responses.map Prod.fst) with
  | some m => ⟨"success", dictGet faq_responses m, none⟩
  | none => ⟨"error", none, some faqFallback⟩

/-! ### scheduler.py -/

/-- A catalog entry: the course_id field if the JSON object has one, plus
the remaining descriptive fields. -/
structure Course where
  course_id : Option String
  fields : List (String × String)
deriving DecidableEq

/-- An offerings entry {term, year, courses}. -/
structure Offering where
  term : String
  year : Int
  courses : List String
deriving DecidableEq

/-- The lazy module cache of _load_courses and _load_offerings, threaded
explicitly: given the outcome of reading the backing source and the
current cache, return (call result, new cache, whether the source was
read).  A hit returns the cache unread; a failed read propagates and
leaves the cache empty. -/
def loadCached {α : Type} (source : Except String α) (cache : Option α) :
    Except String α × Option α × Bool :=
  match cache with
  | some v => (.ok v, some v, false)
  | none =>
    match source with
    | .ok v => (.ok v, some v, true)
    | .error e => (.error e, none, true)

/-- Result dict of get_enrollable_courses. -/
structure EnrollResult where
  status : String
  message : String
  courses : List String
deriving DecidableEq

/-- The error dict returned when the Still_Needed query result is falsy. -/
def enrollNoNeeded : EnrollResult :=
  ⟨"error", "No \x27Still_Needed\x27 courses found for the student.", []⟩

/-- set(c.strip() for c in s.split(comma) if c.strip()): split the
Still_Needed string, strip each piece, keep nonempty pieces, as a
duplicate-free list. -/
def parseStillNeeded (s : String) : List String :=
  ((((splitComma s.data).map pyStrip).map String.mk).filter fun c => c ≠ "").dedup

/-- set(row COURSE_ID for row in result if truthy): the offered course ids,
null and empty values dropped, as a duplicate-free list. -/
def offeredCourses (rows : List (Option String)) : List String :=
  ((rows.filterMap id).filter fun c => c ≠ "").dedup

/-- The success branch of get_enrollable_courses: sorted(list(
still_needed intersected with offered_courses)). -/
def enrollSuccess (s : String) (rows : List (Option String)) : EnrollResult :=
  let eligible :=
    List.insertionSort strLe
      ((parseStillNeeded s).filter fun c => decide (c ∈ offeredCourses rows))
  let n := eligible.length
  ⟨"success", s!"{n} courses are available for enrollment next term.", eligible⟩

/-- get_enrollable_courses.  The two BigQuery result sets are passed in as
Except values (error on a raised exception, caught by the blanket
handler).  The first result set is a list of rows each carrying the
Still_Needed field (none models SQL NULL); the second is the list of
COURSE_ID values.  The falsy check on Still_Needed happens before the
offerings query runs. -/
def get_enrollable_courses (query_needed : Except String (List (Option String)))
    (query_offerings : Except String (List (Option String))) : EnrollResult :=
  match query_needed with
  | .error e => ⟨"error", s!"Failed to load enrollable courses: {e}", []⟩
  | .ok result_needed =>
    match result_needed with
    | some s :: _ =>
      if s = "" then enrollNoNeeded
      else
        match query_offerings with
        | .error e => ⟨"error", s!"Failed to load enrollable courses: {e}", []⟩
        | .ok rows => enrollSuccess s rows
    | _ => enrollNoNeeded

/-- Result dict of get_course_details: the success dict has status and
course_details, the error dict has status, an empty course_details and a
message. -/
structure DetailsResult where
  status : String
  course_details : Option Course
  message : Option String
deriving DecidableEq

/-- get_course_details: load the catalog (an error is converted), then
return the first course whose course_id field equals the argument exactly
and case-sensitively, else the not-found error dict. -/
def get_course_details (src : Except String (List Course)) (course_id : String) : DetailsResult :=
  match src with
  | .error exc => ⟨"error", none, some s!"Unable to load course catalog: {exc}"⟩
  | .ok courses =>
    match courses.find? fun c => c.course_id == some course_id with
    | some course => ⟨"success", some course, none⟩
    | none => ⟨"error", none, some s!"Course \x27{course_id}\x27 not found"⟩

/-- Result dict of get_course_offerings. -/
structure OffResult where
  status : String
  message : String
  offerings : List String
deriving DecidableEq

/-- The term-entry test of get_course_offerings: case-insensitive term
match and exact year match. -/
def offeringMatches (quarter : String) (y : Int) (e : Offering) : Bool :=
  String.mk (pyLower e.term.data) == String.mk (pyLower quarter.data) && e.year == y

/-- get_course_offerings: int(year) is attempted first (ValueError is
converted), then the offerings load (a read error is converted), then the
first matching term entry is looked up; its course list is returned
sorted, or the no-offerings error dict when no entry matches. -/
def get_course_offerings (src : Except String (List Offering)) (quarter year : String) :
    OffResult :=
  match pyParseInt year with
  | none =>
    ⟨"error",
      s!"Failed to retrieve offerings: invalid literal for int() with base 10: \x27{year}\x27",
      []⟩
  | some y =>
    match src with
    | .error exc => ⟨"error", s!"Failed to retrieve offerings: {exc}", []⟩
    | .ok data =>
      match data.find? (offeringMatches quarter y) with
      | none => ⟨"error", s!"No offerings found for {quarter} {year}.", []⟩
      | some entry =>
        ⟨"success", s!"Courses offered in {quarter} {year} have been retrieved.",
          List.insertionSort strLe entry.courses⟩

/-- The constraints record stored into tool_context.state by
build_schedule. -/
structure Constraints where
  allowed_days : List String
  avoid_times : List String
deriving DecidableEq

/-- Result dict of build_schedule. -/
structure ScheduleResult where
  status : String
  message : String
deriving DecidableEq

/-- The fixed weekday list of build_schedule. -/
def all_days : List String :=
  ["Monday", "Tuesday", "Wednesday", "Thursday", "Friday"]

/-- build_schedule: capitalize each avoided day, keep the weekdays not
avoided, store the constraints into state and return the success dict.
The returned pair is (result dict, stored constraints). -/
def build_schedule (avoid_days avoid_times : List String) : ScheduleResult × Constraints :=
  let avoid_set := (avoid_days.map pyCapitalize).dedup
  let allowed_days := all_days.filter fun day => decide (day ∉ avoid_set)
  let d := String.intercalate ", " avoid_days
  let t := String.intercalate ", " avoid_times
  (⟨"success",
      s!"✅ Your schedule has been built with the following constraints: Avoiding {d} on days and {t} on times."⟩,
    ⟨allowed_days, avoid_times⟩)

/-- Result dict of get_student_details. -/
structure StudentResult where
  status : String
  student_details : Option (List (String × String))
  message : Option String
deriving DecidableEq

/-- get_student_details: read student_details from the tool context state
(none models an absent key, whose KeyError is caught). -/
def get_student_details (state_student_details : Option (List (String × String))) :
    StudentResult :=
  match state_student_details with
  | some sd => ⟨"success", some sd, none⟩
  | none => ⟨"error", none, some "Student details not found in state."⟩

/-! ### Helper lemmas: the data-level string order agrees with the order
on String, and sorting a duplicate-free list is strictly ascending. -/

theorem strLt_iff (s t : String) : strLt s t ↔ s < t :=
  String.lt_iff_toList_lt.symm

theorem strLe_iff (s t : String) : strLe s t ↔ s ≤ t := by
  unfold strLe
  rw [strLt_iff]
  exact not_lt

theorem strLe_total' (s t : String) : strLe s t ∨ strLe t s := by
  rw [strLe_iff, strLe_iff]
  exact le_total s t

theorem strLe_trans' {a b c : String} (hab : strLe a b) (hbc : strLe b c) : strLe a c := by
  rw [strLe_iff] at hab hbc ⊢
  exact le_trans hab hbc

theorem sorted_nodup_strict {l : List String} (hs : l.Pairwise strLe) (hn : l.Nodup) :
    l.Pairwise strLt := by
  have hs' : l.Sorted (· ≤ ·) := hs.imp fun h => (strLe_iff _ _).mp h
  exact (hs'.lt_of_le hn).imp fun h => (strLt_iff _ _).mpr h

theorem insertionSort_strict {l : List String} (hn : l.Nodup) :
    (List.insertionSort strLe l).Pairwise strLt := by
  haveI : IsTotal String strLe := ⟨strLe_total'⟩
  haveI : IsTrans String strLe := ⟨fun _ _ _ => strLe_trans'⟩
  refine sorted_nodup_strict (List.sorted_insertionSort strLe l) ?_
  exact ((List.perm_insertionSort strLe l).nodup_iff).mpr hn

theorem insertionSort_sorted (l : List String) :
    (List.insertionSort strLe l).Pairwise strLe := by
  haveI : IsTotal String strLe := ⟨strLe_total'⟩
  haveI : IsTrans String strLe := ⟨fun _ _ _ => strLe_trans'⟩
  exact List.sorted_insertionSort strLe l

theorem parseStillNeeded_nodup (s : String) : (parseStillNeeded s).Nodup :=
  List.nodup_dedup _

/-! ### Claim theorems for the scheduler tools -/

/-- C1 (amended): for a call with a nonempty Still_Needed field, the result
is a success and a course id is in the returned list iff it is in the
parsed still-needed set and in the offered set; the course catalog and
prerequisites are not consulted at all. -/
theorem enrollable_membership (s : String) (rest qo : List (Option String)) (hs : s ≠ "") :
    (get_enrollable_courses (.ok (some s :: rest)) (.ok qo)).status = "success" ∧
    ∀ c, c ∈ (get_enrollable_courses (.ok (some s :: rest)) (.ok qo)).courses ↔
      (c ∈ parseStillNeeded s ∧ c ∈ offeredCourses qo) := by
  have hred : get_enrollable_courses (.ok (some s :: rest)) (.ok qo) = enrollSuccess s qo := by
    simp [get_enrollable_courses, hs]
  constructor
  · rw [hred]
    rfl
  · intro c
    rw [hred]
    show c ∈ List.insertionSort strLe _ ↔ _
    rw [(List.perm_insertionSort strLe _).mem_iff, List.mem_filter]
    simp

/-- C1 witness: a concrete application of the amended statement. -/
theorem enrollable_membership_witness :
    "CS101" ∈ (get_enrollable_courses (.ok [some "CS101,CS102"])
      (.ok [some "CS101", some "CS102"])).courses :=
  ((enrollable_membership "CS101,CS102" [] [some "CS101", some "CS102"] (by decide)).2
    "CS101").mpr (by decide)

/-- C1 counterexample: in the scenario of the claim (catalog CS101 with no
prerequisites and CS102 with prerequisite CS101, both offered, nothing
taken, hence both still needed), the code returns both courses: CS102 is
included although its prerequisite is not in the taken set, so the claimed
result of exactly CS101 is wrong. -/
theorem enrollable_prereq_counterexample :
    (get_enrollable_courses (.ok [some "CS101,CS102"])
        (.ok [some "CS101", some "CS102"])).courses = ["CS101", "CS102"] ∧
    (get_enrollable_courses (.ok [some "CS101,CS102"])
        (.ok [some "CS101", some "CS102"])).courses ≠ ["CS101"] := by
  decide

/-- C2 (amended): with a nonempty Still_Needed field and no qualifying
course the result is a success with an empty course list; but when the
query returns no rows or a null or empty Still_Needed field, the result is
the error dict (with an empty course list), not a success. -/
theorem enrollable_empty_cases (s : String) (rest qo : List (Option String)) :
    (s ≠ "" →
      (parseStillNeeded s).filter (fun c => decide (c ∈ offeredCourses qo)) = [] →
      get_enrollable_courses (.ok (some s :: rest)) (.ok qo) =
        ⟨"success", "0 courses are available for enrollment next term.", []⟩) ∧
    get_enrollable_courses (.ok (some "" :: rest)) (.ok qo) = enrollNoNeeded ∧
    get_enrollable_courses (.ok []) (.ok qo) = enrollNoNeeded ∧
    get_enrollable_courses (.ok (none :: rest)) (.ok qo) = enrollNoNeeded := by
  refine ⟨fun hs hempty => ?_, rfl, rfl, rfl⟩
  have hred : get_enrollable_courses (.ok (some s :: rest)) (.ok qo) = enrollSuccess s qo := by
    simp [get_enrollable_courses, hs]
  rw [hred]
  unfold enrollSuccess
  rw [hempty]
  rfl

/-- C2 witness: a concrete application of the amended statement. -/
theorem enrollable_empty_cases_witness :
    get_enrollable_courses (.ok [some "CS999"]) (.ok []) =
      ⟨"success", "0 courses are available for enrollment next term.", []⟩ :=
  (enrollable_empty_cases "CS999" [] []).1 (by decide) (by decide)

/-- C2 counterexample: with an empty Still_Needed field (empty still-needed
set) the code returns status error, not the success the claim demands. -/
theorem enrollable_empty_needed_counterexample :
    (get_enrollable_courses (.ok [some ""]) (.ok [])).status = "error" ∧
    (get_enrollable_courses (.ok [some ""]) (.ok [])).status ≠ "success" := by
  decide

/-- C3: on every input, the course list returned by get_enrollable_courses
is strictly ascending under lexicographic string comparison, hence free of
duplicates; error branches return the empty list. -/
theorem enrollable_courses_strictly_sorted (qn qo : Except String (List (Option String))) :
    ((get_enrollable_courses qn qo).courses).Pairwise strLt := by
  cases qn with
  | error e => simp [get_enrollable_courses]
  | ok rn =>
    match rn with
    | [] => simp [get_enrollable_courses, enrollNoNeeded]
    | none :: rest => simp [get_enrollable_courses, enrollNoNeeded]
    | some s :: rest =>
      by_cases hs : s = ""
      · simp [get_enrollable_courses, hs, enrollNoNeeded]
      · cases qo with
        | error e => simp [get_enrollable_courses, hs]
        | ok rows =>
          have hred : get_enrollable_courses (.ok (some s :: rest)) (.ok rows) =
              enrollSuccess s rows := by
            simp [get_enrollable_courses, hs]
          rw [hred]
          exact insertionSort_strict ((parseStillNeeded_nodup s).filter _)

/-- C4: with a parseable year and loaded offerings data, a first entry
matching the term case-insensitively and the year exactly yields a success
whose offerings are that entry's course list sorted ascending; when no
entry matches, the error dict names the requested term and year and
carries an empty offerings list. -/
theorem course_offerings_spec (quarter year : String) (y : Int) (data : List Offering)
    (hy : pyParseInt year = some y) :
    (∀ entry, data.find? (offeringMatches quarter y) = some entry →
      (get_course_offerings (.ok data) quarter year).status = "success" ∧
      List.Perm ((get_course_offerings (.ok data) quarter year).offerings) entry.courses ∧
      ((get_course_offerings (.ok data) quarter year).offerings).Pairwise strLe) ∧
    ((∀ e ∈ data, ¬ offeringMatches quarter y e = true) →
      get_course_offerings (.ok data) quarter year =
        ⟨"error", s!"No offerings found for {quarter} {year}.", []⟩) ∧
    ((∃ e ∈ data, offeringMatches quarter y e = true) →
      ∃ entry, data.find? (offeringMatches quarter y) = some entry) ∧
    (∀ e : Offering, offeringMatches quarter y e = true ↔
      (pyLower e.term.data = pyLower quarter.data ∧ e.year = y)) := by
  refine ⟨fun entry hfind => ?_, fun hnone => ?_, fun hex => ?_, fun e => ?_⟩
  · have hred : get_course_offerings (.ok data) quarter year =
        ⟨"success", s!"Courses offered in {quarter} {year} have been retrieved.",
          List.insertionSort strLe entry.courses⟩ := by
      simp only [get_course_offerings, hy, hfind]
    rw [hred]
    exact ⟨rfl, List.perm_insertionSort strLe entry.courses, insertionSort_sorted entry.courses⟩
  · simp only [get_course_offerings, hy, List.find?_eq_none.mpr hnone]
  · obtain ⟨e, he, hm⟩ := hex
    have := @List.find?_isSome Offering data (offeringMatches quarter y)
    rw [Option.isSome_iff_exists] at this
    exact this.mpr ⟨e, he, hm⟩
  · unfold offeringMatches
    simp [String.ext_iff]

/-- C4 witness: a concrete application. -/
theorem course_offerings_spec_witness :
    (get_course_offerings (Except.ok [⟨"Fall", 2024, ["CS2", "CS1"]⟩]) "fall" " 2024").status
      = "success" :=
  ((course_offerings_spec "fall" " 2024" 2024 [⟨"Fall", 2024, ["CS2", "CS1"]⟩] (by decide)).1
    ⟨"Fall", 2024, ["CS2", "CS1"]⟩ (by decide)).1

/-- C5: a year string that is not convertible to an integer yields an
error result with an empty offerings list (the ValueError is caught and
converted, never propagated). -/
theorem course_offerings_invalid_year (src : Except String (List Offering))
    (quarter year : String) (hy : pyParseInt year = none) :
    (get_course_offerings src quarter year).status = "error" ∧
    (get_course_offerings src quarter year).offerings = [] := by
  unfold get_course_offerings
  rw [hy]
  exact ⟨rfl, rfl⟩

/-- C5 witness: a concrete application. -/
theorem course_offerings_invalid_year_witness :
    (get_course_offerings (Except.ok ([] : List Offering)) "Fall" "20x4").status = "error" ∧
    (get_course_offerings (Except.ok ([] : List Offering)) "Fall" "20x4").offerings = [] :=
  course_offerings_invalid_year (Except.ok []) "Fall" "20x4" (by decide)

/-- C6: get_course_details does an exact, case-sensitive lookup: the first
catalog entry whose course_id equals the argument is returned as a
success, and when none matches the error dict carries an empty
course_details payload and the not-found message. -/
theorem course_details_spec (courses : List Course) (cid : String) :
    (∀ c, courses.find? (fun x => x.course_id == some cid) = some c →
      c.course_id = some cid ∧
      (∃ pre post, courses = pre ++ c :: post ∧ ∀ x ∈ pre, x.course_id ≠ some cid) ∧
      get_course_details (.ok courses) cid = ⟨"success", some c, none⟩) ∧
    ((∀ c ∈ courses, c.course_id ≠ some cid) →
      get_course_details (.ok courses) cid =
        ⟨"error", none, some s!"Course \x27{cid}\x27 not found"⟩) ∧
    ((∃ c ∈ courses, c.course_id = some cid) →
      ∃ c, courses.find? (fun x => x.course_id == some cid) = some c) := by
  refine ⟨fun c hfind => ?_, fun hnone => ?_, fun hex => ?_⟩
  · refine ⟨?_, ?_, ?_⟩
    · have := List.find?_some hfind
      simpa using this
    · obtain ⟨hp, pre, post, hsplit, hall⟩ := List.find?_eq_some.mp hfind
      refine ⟨pre, post, hsplit, fun x hx => ?_⟩
      have := hall x hx
      simpa using this
    · simp only [get_course_details, hfind]
  · have hfn : courses.find? (fun x => x.course_id == some cid) = none := by
      rw [List.find?_eq_none]
      intro x hx
      simpa using hnone x hx
    simp only [get_course_details, hfn]
  · obtain ⟨c, hc, hcid⟩ := hex
    have := @List.find?_isSome Course courses (fun x => x.course_id == some cid)
    rw [Option.isSome_iff_exists] at this
    exact this.mpr ⟨c, hc, by simp [hcid]⟩

/-- C6 witness: a concrete application. -/
theorem course_details_spec_witness :
    get_course_details (Except.ok [⟨some "CS101", []⟩]) "CS101" =
      ⟨"success", some ⟨some "CS101", []⟩, none⟩ :=
  ((course_details_spec [⟨some "CS101", []⟩] "CS101").1 ⟨some "CS101", []⟩ (by decide)).2.2

/-- C8: cache semantics of the loaders: a hit returns the cached value
identically without reading the source; a successful first load fills the
cache; a failed load propagates the error and leaves the cache empty, so
the next call reads the source again. -/
theorem load_cache_spec :
    (∀ (α : Type) (src2 : Except String α) (v : α),
      loadCached src2 (some v) = (.ok v, some v, false)) ∧
    (∀ (α : Type) (v : α),
      loadCached (Except.ok v) (none : Option α) = (.ok v, some v, true)) ∧
    (∀ (α : Type) (e : String),
      loadCached (Except.error e) (none : Option α) = (.error e, none, true)) :=
  ⟨fun _ _ _ => rfl, fun _ _ => rfl, fun _ _ => rfl⟩

/-- C9 (amended): the scheduler tools convert their modelled faults into
structured error results with empty payloads, and get_faq_answer always
returns a structured dict once the store is loaded; the FAQ load itself
performs no conversion (see the counterexample). -/
theorem tool_fault_conversion :
    (∀ qn qo, (get_enrollable_courses qn qo).status = "success" ∨
      ((get_enrollable_courses qn qo).status = "error" ∧
        (get_enrollable_courses qn qo).courses = [])) ∧
    (∀ (e : String) (cid : String), get_course_details (.error e) cid =
      ⟨"error", none, some s!"Unable to load course catalog: {e}"⟩) ∧
    (∀ (e : String) (quarter year : String),
      (get_course_offerings (.error e) quarter year).status = "error" ∧
      (get_course_offerings (.error e) quarter year).offerings = []) ∧
    (∀ (src : Except String (List Offering)) (quarter year : String),
      pyParseInt year = none →
      (get_course_offerings src quarter year).status = "error" ∧
      (get_course_offerings src quarter year).offerings = []) ∧
    get_student_details none = ⟨"error", none, some "Student details not found in state."⟩ ∧
    (∀ (store : List (String × String)) (q : String),
      (get_faq_answer store q).status = "success" ∨
      (get_faq_answer store q).status = "error") := by
  refine ⟨?_, fun _ _ => rfl, ?_, ?_, rfl, ?_⟩
  · intro qn qo
    cases qn with
    | error e => exact Or.inr ⟨rfl, rfl⟩
    | ok rn =>
      match rn with
      | [] => exact Or.inr ⟨rfl, rfl⟩
      | none :: rest => exact Or.inr ⟨rfl, rfl⟩
      | some s :: rest =>
        by_cases hs : s = ""
        · subst hs
          exact Or.inr ⟨rfl, rfl⟩
        · cases qo with
          | error e =>
            refine Or.inr ?_
            have : get_enrollable_courses (.ok (some s :: rest)) (.error e) =
                ⟨"error", s!"Failed to load enrollable courses: {e}", []⟩ := by
              simp [get_enrollable_courses, hs]
            rw [this]
            exact ⟨rfl, rfl⟩
          | ok rows =>
            refine Or.inl ?_
            have : get_enrollable_courses (.ok (some s :: rest)) (.ok rows) =
                enrollSuccess s rows := by
              simp [get_enrollable_courses, hs]
            rw [this]
            rfl
  · intro e quarter year
    unfold get_course_offerings
    cases h : pyParseInt year with
    | none => exact ⟨rfl, rfl⟩
    | some y => exact ⟨rfl, rfl⟩
  · intro src quarter year hy
    unfold get_course_offerings
    rw [hy]
    exact ⟨rfl, rfl⟩
  · intro store question
    cases h : getCloseMatches1 (pyNormalize question) (store.map Prod.fst) with
    | none =>
      right
      simp only [get_faq_answer, h]
    | some m =>
      left
      simp only [get_faq_answer, h]

/-- C9 witness: a concrete application of the conversion statement. -/
theorem tool_fault_conversion_witness :
    (get_course_offerings (Except.ok ([] : List Offering)) "Fall" "abc").status = "error" ∧
    (get_course_offerings (Except.ok ([] : List Offering)) "Fall" "abc").offerings = [] :=
  tool_fault_conversion.2.2.2.1 (Except.ok []) "Fall" "abc" (by decide)

/-- C9 counterexample: the FAQ load path converts nothing: a read failure
of the FAQ file (for example a missing file) propagates out of load_faqs
as a raw fault instead of a structured status-error result, so not every
tool-level data-source fault is converted. -/
theorem load_faqs_propagates_counterexample :
    load_faqs (Except.error "FileNotFoundError: faqs.yaml") =
      Except.error "FileNotFoundError: faqs.yaml" :=
  rfl

/-- C10: build_schedule always succeeds, stores avoid_times unchanged, and
stores as allowed_days exactly the Monday-to-Friday list, in that order,
with the capitalized avoid_days entries removed. -/
theorem build_schedule_spec (avoid_days avoid_times : List String) :
    (build_schedule avoid_days avoid_times).1.status = "success" ∧
    (build_schedule avoid_days avoid_times).2.avoid_times = avoid_times ∧
    ((build_schedule avoid_days avoid_times).2.allowed_days).Sublist all_days ∧
    ∀ d, d ∈ (build_schedule avoid_days avoid_times).2.allowed_days ↔
      (d ∈ all_days ∧ ∀ a ∈ avoid_days, pyCapitalize a ≠ d) := by
  refine ⟨rfl, rfl, ?_, fun d => ?_⟩
  · exact List.filter_sublist _
  · have hred : (build_schedule avoid_days avoid_times).2.allowed_days =
        all_days.filter (fun day => decide (day ∉ (avoid_days.map pyCapitalize).dedup)) := rfl
    rw [hred, List.mem_filter]
    simp [List.mem_dedup, eq_comm]

/-- C10 witness: a concrete application. -/
theorem build_schedule_spec_witness :
    "Monday" ∉ (build_schedule ["monday"] ([] : List String)).2.allowed_days :=
  fun h =>
    (((build_schedule_spec ["monday"] []).2.2.2 "Monday").mp h).2 "monday" (by decide) (by decide)

/-! ### difflib lemmas: properties of the longest-match scan -/

theorem cpl_le_left : ∀ xs ys : List Char, commonPrefixLen xs ys ≤ xs.length := by
  intro xs
  induction xs with
  | nil => intro ys; cases ys <;> simp [commonPrefixLen]
  | cons x xs ih =>
    intro ys
    cases ys with
    | nil => simp [commonPrefixLen]
    | cons y ys =>
      simp only [commonPrefixLen]
      split
      · simpa using Nat.succ_le_succ (ih ys)
      · simp

theorem cpl_le_right : ∀ xs ys : List Char, commonPrefixLen xs ys ≤ ys.length := by
  intro xs
  induction xs with
  | nil => intro ys; cases ys <;> simp [commonPrefixLen]
  | cons x xs ih =>
    intro ys
    cases ys with
    | nil => simp [commonPrefixLen]
    | cons y ys =>
      simp only [commonPrefixLen]
      split
      · simpa using Nat.succ_le_succ (ih ys)
      · simp

theorem cpl_self : ∀ xs : List Char, commonPrefixLen xs xs = xs.length := by
  intro xs
  induction xs with
  | nil => rfl
  | cons x xs ih => simp [commonPrefixLen, ih]

theorem cpl_take : ∀ (k : Nat) (xs ys : List Char), k ≤ commonPrefixLen xs ys →
    xs.take k = ys.take k := by
  intro k
  induction k with
  | zero => intro xs ys _; simp
  | succ k ih =>
    intro xs ys hk
    cases xs with
    | nil => cases ys <;> simp [commonPrefixLen] at hk
    | cons x xs =>
      cases ys with
      | nil => simp [commonPrefixLen] at hk
      | cons y ys =>
        simp only [commonPrefixLen] at hk
        by_cases hxy : x = y
        · rw [if_pos hxy] at hk
          subst hxy
          simp only [List.take_succ_cons]
          rw [ih xs ys (Nat.le_of_succ_le_succ hk)]
        · rw [if_neg hxy] at hk
          omega

theorem flmPairs_mem (a b : List Char) (p : Nat × Nat) :
    p ∈ flmPairs a b ↔ p.1 < a.length ∧ p.2 < b.length := by
  obtain ⟨i, j⟩ := p
  simp [flmPairs, List.mem_flatMap, List.mem_map, List.mem_range]

theorem cpl_append : ∀ (c xs ys : List Char),
    commonPrefixLen (c ++ xs) (c ++ ys) = c.length + commonPrefixLen xs ys := by
  intro c
  induction c with
  | nil => intro xs ys; simp
  | cons d c ih =>
    intro xs ys
    show (if d = d then commonPrefixLen (c ++ xs) (c ++ ys) + 1 else 0) = _
    rw [if_pos rfl, ih]
    simp only [List.length_cons]
    omega

theorem cpl_add : ∀ (m : Nat) (xs ys : List Char), m ≤ commonPrefixLen xs ys →
    commonPrefixLen xs ys = m + commonPrefixLen (xs.drop m) (ys.drop m) := by
  intro m
  induction m with
  | zero => intro xs ys _; simp
  | succ m ih =>
    intro xs ys h
    cases xs with
    | nil => cases ys <;> simp [commonPrefixLen] at h
    | cons x xs =>
      cases ys with
      | nil => simp [commonPrefixLen] at h
      | cons y ys =>
        simp only [commonPrefixLen, List.drop_succ_cons] at h ⊢
        by_cases hxy : x = y
        · rw [if_pos hxy] at h ⊢
          have hm : m ≤ commonPrefixLen xs ys := by omega
          rw [ih xs ys hm]
          omega
        · rw [if_neg hxy] at h
          omega

theorem csl_le_left (xs ys : List Char) : commonSuffixLen xs ys ≤ xs.length := by
  have h := cpl_le_left xs.reverse ys.reverse
  rw [List.length_reverse] at h
  exact h

theorem csl_le_right (xs ys : List Char) : commonSuffixLen xs ys ≤ ys.length := by
  have h := cpl_le_right xs.reverse ys.reverse
  rw [List.length_reverse] at h
  exact h

theorem csl_self (xs : List Char) : commonSuffixLen xs xs = xs.length := by
  unfold commonSuffixLen
  rw [cpl_self, List.length_reverse]

theorem csl_suffix (xs ys : List Char) :
    xs.drop (xs.length - commonSuffixLen xs ys) =
      ys.drop (ys.length - commonSuffixLen xs ys) := by
  have h1 : xs.reverse.take (commonSuffixLen xs ys) =
      ys.reverse.take (commonSuffixLen xs ys) :=
    cpl_take _ _ _ (le_refl _)
  have h2 := congrArg List.reverse h1
  rw [← List.rtake_eq_reverse_take_reverse, ← List.rtake_eq_reverse_take_reverse] at h2
  simpa [List.rtake] using h2

theorem drop_eq_drop_take_append (a : List Char) (i m : Nat) (hm : m ≤ i)
    (hi : i ≤ a.length) : a.drop m = (a.take i).drop m ++ a.drop i := by
  conv_lhs => rw [← List.take_append_drop i a]
  rw [List.drop_append_of_le_length]
  rw [List.length_take]
  omega

theorem rcpl_le_left (bpop : List Char) : ∀ xs ys : List Char, rcpl bpop xs ys ≤ xs.length := by
  intro xs
  induction xs with
  | nil => intro ys; cases ys <;> simp [rcpl]
  | cons x xs ih =>
    intro ys
    cases ys with
    | nil => simp [rcpl]
    | cons y ys =>
      simp only [rcpl]
      split
      · simpa using Nat.succ_le_succ (ih ys)
      · simp

theorem rcpl_le_right (bpop : List Char) : ∀ xs ys : List Char, rcpl bpop xs ys ≤ ys.length := by
  intro xs
  induction xs with
  | nil => intro ys; cases ys <;> simp [rcpl]
  | cons x xs ih =>
    intro ys
    cases ys with
    | nil => simp [rcpl]
    | cons y ys =>
      simp only [rcpl]
      split
      · simpa using Nat.succ_le_succ (ih ys)
      · simp

theorem rcpl_le_cpl (bpop : List Char) : ∀ xs ys : List Char,
    rcpl bpop xs ys ≤ commonPrefixLen xs ys := by
  intro xs
  induction xs with
  | nil => intro ys; cases ys <;> simp [rcpl]
  | cons x xs ih =>
    intro ys
    cases ys with
    | nil => simp [rcpl]
    | cons y ys =>
      simp only [rcpl, commonPrefixLen]
      by_cases h : x = y ∧ ¬ y ∈ bpop
      · rw [if_pos h, if_pos h.1]
        exact Nat.succ_le_succ (ih ys)
      · rw [if_neg h]
        exact Nat.zero_le _

theorem rcpl_le_diag_left (bpop : List Char) : ∀ xs ys : List Char,
    rcpl bpop xs ys ≤ rcpl bpop xs xs := by
  intro xs
  induction xs with
  | nil => intro ys; cases ys <;> simp [rcpl]
  | cons x xs ih =>
    intro ys
    cases ys with
    | nil => simp [rcpl]
    | cons y ys =>
      by_cases h : x = y ∧ ¬ y ∈ bpop
      · have hx : x = x ∧ ¬ x ∈ bpop := ⟨rfl, by rw [h.1]; exact h.2⟩
        show (if x = y ∧ ¬ y ∈ bpop then rcpl bpop xs ys + 1 else 0) ≤
          (if x = x ∧ ¬ x ∈ bpop then rcpl bpop xs xs + 1 else 0)
        rw [if_pos h, if_pos hx]
        exact Nat.succ_le_succ (ih ys)
      · show (if x = y ∧ ¬ y ∈ bpop then rcpl bpop xs ys + 1 else 0) ≤ _
        rw [if_neg h]
        exact Nat.zero_le _

theorem rcpl_le_diag_right (bpop : List Char) : ∀ xs ys : List Char,
    rcpl bpop xs ys ≤ rcpl bpop ys ys := by
  intro xs
  induction xs with
  | nil => intro ys; cases ys <;> simp [rcpl]
  | cons x xs ih =>
    intro ys
    cases ys with
    | nil => simp [rcpl]
    | cons y ys =>
      by_cases h : x = y ∧ ¬ y ∈ bpop
      · have hy : y = y ∧ ¬ y ∈ bpop := ⟨rfl, h.2⟩
        show (if x = y ∧ ¬ y ∈ bpop then rcpl bpop xs ys + 1 else 0) ≤
          (if y = y ∧ ¬ y ∈ bpop then rcpl bpop ys ys + 1 else 0)
        rw [if_pos h, if_pos hy]
        exact Nat.succ_le_succ (ih ys)
      · show (if x = y ∧ ¬ y ∈ bpop then rcpl bpop xs ys + 1 else 0) ≤ _
        rw [if_neg h]
        exact Nat.zero_le _

theorem flm_fold_bounds (bpop a b : List Char) (l : List (Nat × Nat)) (t : Nat × Nat × Nat)
    (hl : ∀ p ∈ l, p.1 ≤ a.length ∧ p.2 ≤ b.length)
    (ht : t.1 + t.2.2 ≤ a.length ∧ t.2.1 + t.2.2 ≤ b.length ∧
      t.2.2 ≤ rcpl bpop (a.drop t.1) (b.drop t.2.1)) :
    (l.foldl (flmStep bpop a b) t).1 + (l.foldl (flmStep bpop a b) t).2.2 ≤ a.length ∧
    (l.foldl (flmStep bpop a b) t).2.1 + (l.foldl (flmStep bpop a b) t).2.2 ≤ b.length ∧
    (l.foldl (flmStep bpop a b) t).2.2 ≤
      rcpl bpop (a.drop (l.foldl (flmStep bpop a b) t).1)
        (b.drop (l.foldl (flmStep bpop a b) t).2.1) := by
  induction l generalizing t with
  | nil => exact ht
  | cons p l ih =>
    refine ih (flmStep bpop a b t p) (fun q hq => hl q (List.mem_cons_of_mem p hq)) ?_
    have hp := hl p (List.mem_cons_self p l)
    unfold flmStep
    split
    · refine ⟨?_, ?_, ?_⟩
      · show p.1 + rcpl bpop (a.drop p.1) (b.drop p.2) ≤ a.length
        have h1 := rcpl_le_left bpop (a.drop p.1) (b.drop p.2)
        rw [List.length_drop] at h1
        omega
      · show p.2 + rcpl bpop (a.drop p.1) (b.drop p.2) ≤ b.length
        have h2 := rcpl_le_right bpop (a.drop p.1) (b.drop p.2)
        rw [List.length_drop] at h2
        omega
      · show rcpl bpop (a.drop p.1) (b.drop p.2) ≤ rcpl bpop (a.drop p.1) (b.drop p.2)
        exact le_refl _
    · exact ht

theorem flmCore_spec (bpop a b : List Char) :
    (flmCore bpop a b).1 + (flmCore bpop a b).2.2 ≤ a.length ∧
    (flmCore bpop a b).2.1 + (flmCore bpop a b).2.2 ≤ b.length ∧
    (flmCore bpop a b).2.2 ≤
      rcpl bpop (a.drop (flmCore bpop a b).1) (b.drop (flmCore bpop a b).2.1) :=
  flm_fold_bounds bpop a b (flmPairs a b) (0, 0, 0)
    (fun p hp => by
      have := (flmPairs_mem a b p).mp hp
      omega)
    ⟨Nat.zero_le _, Nat.zero_le _, Nat.zero_le _⟩

theorem flm_spec (bpop a b : List Char) :
    (findLongestMatch bpop a b).1 + (findLongestMatch bpop a b).2.2 ≤ a.length ∧
    (findLongestMatch bpop a b).2.1 + (findLongestMatch bpop a b).2.2 ≤ b.length ∧
    (findLongestMatch bpop a b).2.2 ≤
      commonPrefixLen (a.drop (findLongestMatch bpop a b).1)
        (b.drop (findLongestMatch bpop a b).2.1) := by
  obtain ⟨hc1, hc2, hc3⟩ := flmCore_spec bpop a b
  rcases hc : flmCore bpop a b with ⟨i, j, k⟩
  rw [hc] at hc1 hc2 hc3
  have h1 : i + k ≤ a.length := hc1
  have h2 : j + k ≤ b.length := hc2
  have h3 : k ≤ commonPrefixLen (a.drop i) (b.drop j) :=
    le_trans hc3 (rcpl_le_cpl bpop _ _)
  unfold findLongestMatch extendMatch
  rw [hc]
  show (i - commonSuffixLen (a.take i) (b.take j)) +
      (k + commonSuffixLen (a.take i) (b.take j)
        + commonPrefixLen (a.drop (i + k)) (b.drop (j + k))) ≤ a.length ∧
    (j - commonSuffixLen (a.take i) (b.take j)) +
      (k + commonSuffixLen (a.take i) (b.take j)
        + commonPrefixLen (a.drop (i + k)) (b.drop (j + k))) ≤ b.length ∧
    k + commonSuffixLen (a.take i) (b.take j)
        + commonPrefixLen (a.drop (i + k)) (b.drop (j + k)) ≤
      commonPrefixLen (a.drop (i - commonSuffixLen (a.take i) (b.take j)))
        (b.drop (j - commonSuffixLen (a.take i) (b.take j)))
  have hlt1 : (a.take i).length = i := by
    rw [List.length_take]
    omega
  have hlt2 : (b.take j).length = j := by
    rw [List.length_take]
    omega
  have he_le_i : commonSuffixLen (a.take i) (b.take j) ≤ i := by
    have h := csl_le_left (a.take i) (b.take j)
    rwa [hlt1] at h
  have he_le_j : commonSuffixLen (a.take i) (b.take j) ≤ j := by
    have h := csl_le_right (a.take i) (b.take j)
    rwa [hlt2] at h
  have hseg : (a.take i).drop (i - commonSuffixLen (a.take i) (b.take j)) =
      (b.take j).drop (j - commonSuffixLen (a.take i) (b.take j)) := by
    have h := csl_suffix (a.take i) (b.take j)
    rwa [hlt1, hlt2] at h
  have hda : a.drop (i - commonSuffixLen (a.take i) (b.take j)) =
      (a.take i).drop (i - commonSuffixLen (a.take i) (b.take j)) ++ a.drop i :=
    drop_eq_drop_take_append a i (i - commonSuffixLen (a.take i) (b.take j))
      (by omega) (by omega)
  have hdb : b.drop (j - commonSuffixLen (a.take i) (b.take j)) =
      (b.take j).drop (j - commonSuffixLen (a.take i) (b.take j)) ++ b.drop j :=
    drop_eq_drop_take_append b j (j - commonSuffixLen (a.take i) (b.take j))
      (by omega) (by omega)
  have hkey : commonPrefixLen (a.drop (i - commonSuffixLen (a.take i) (b.take j)))
      (b.drop (j - commonSuffixLen (a.take i) (b.take j))) =
      commonSuffixLen (a.take i) (b.take j) + commonPrefixLen (a.drop i) (b.drop j) := by
    rw [hda, hdb, ← hseg, cpl_append]
    congr 1
    rw [List.length_drop, hlt1]
    omega
  have hsplit := cpl_add k (a.drop i) (b.drop j) h3
  rw [List.drop_drop, List.drop_drop] at hsplit
  have he2a : commonPrefixLen (a.drop (i + k)) (b.drop (j + k)) ≤ a.length - (i + k) := by
    have h := cpl_le_left (a.drop (i + k)) (b.drop (j + k))
    rwa [List.length_drop] at h
  have he2b : commonPrefixLen (a.drop (i + k)) (b.drop (j + k)) ≤ b.length - (j + k) := by
    have h := cpl_le_right (a.drop (i + k)) (b.drop (j + k))
    rwa [List.length_drop] at h
  refine ⟨by omega, by omega, ?_⟩
  rw [hkey, hsplit]
  omega

theorem foldl_flatMap {α β γ : Type} (g : α → List β) (f : γ → β → γ) :
    ∀ (l : List α) (init : γ),
      (l.flatMap g).foldl f init = l.foldl (fun acc x => (g x).foldl f acc) init := by
  intro l
  induction l with
  | nil => intro init; rfl
  | cons x l ih =>
    intro init
    rw [List.flatMap_cons, List.foldl_append, List.foldl_cons, ih]

theorem flmStep_mono (bpop a b : List Char) (t : Nat × Nat × Nat) (p : Nat × Nat) :
    t.2.2 ≤ (flmStep bpop a b t p).2.2 := by
  unfold flmStep
  split
  · show t.2.2 ≤ rcpl bpop (a.drop p.1) (b.drop p.2)
    omega
  · exact le_refl _

theorem flmStep_no_update (bpop a b : List Char) (t : Nat × Nat × Nat) (p : Nat × Nat)
    (h : rcpl bpop (a.drop p.1) (b.drop p.2) ≤ t.2.2) :
    flmStep bpop a b t p = t := by
  unfold flmStep
  rw [if_neg (by omega)]

theorem flm_row_diag (bpop a : List Char) (i : Nat) :
    ∀ (cnt j0 : Nat) (t : Nat × Nat × Nat),
      t.1 = t.2.1 →
      (∀ d, d < i → rcpl bpop (a.drop d) (a.drop d) ≤ t.2.2) →
      (i < j0 → rcpl bpop (a.drop i) (a.drop i) ≤ t.2.2) →
      ((List.range' j0 cnt).foldl (fun acc j => flmStep bpop a a acc (i, j)) t).1 =
        ((List.range' j0 cnt).foldl (fun acc j => flmStep bpop a a acc (i, j)) t).2.1 ∧
      (∀ d, d < i → rcpl bpop (a.drop d) (a.drop d) ≤
        ((List.range' j0 cnt).foldl (fun acc j => flmStep bpop a a acc (i, j)) t).2.2) ∧
      (i < j0 + cnt → rcpl bpop (a.drop i) (a.drop i) ≤
        ((List.range' j0 cnt).foldl (fun acc j => flmStep bpop a a acc (i, j)) t).2.2) := by
  intro cnt
  induction cnt with
  | zero =>
    intro j0 t h1 h2 h3
    exact ⟨h1, h2, fun hi => h3 (by omega)⟩
  | succ cnt ih =>
    intro j0 t h1 h2 h3
    rw [List.range'_succ, List.foldl_cons]
    rcases Nat.lt_trichotomy j0 i with hj | hj | hj
    · have hnu : flmStep bpop a a t (i, j0) = t :=
        flmStep_no_update bpop a a t (i, j0)
          (le_trans (rcpl_le_diag_right bpop _ _) (h2 j0 hj))
      rw [hnu]
      have hrec := ih (j0 + 1) t h1 h2 (fun hi => absurd hi (by omega))
      exact ⟨hrec.1, hrec.2.1, fun hcnt => hrec.2.2 (by omega)⟩
    · subst hj
      have hdiag : (flmStep bpop a a t (j0, j0)).1 = (flmStep bpop a a t (j0, j0)).2.1 := by
        unfold flmStep
        split
        · rfl
        · exact h1
      have hmono : t.2.2 ≤ (flmStep bpop a a t (j0, j0)).2.2 := flmStep_mono bpop a a t (j0, j0)
      have hge : rcpl bpop (a.drop j0) (a.drop j0) ≤ (flmStep bpop a a t (j0, j0)).2.2 := by
        unfold flmStep
        split
        · show rcpl bpop (a.drop j0) (a.drop j0) ≤ rcpl bpop (a.drop j0) (a.drop j0)
          exact le_refl _
        · next hcond =>
          have hc2 : ¬ t.2.2 < rcpl bpop (a.drop j0) (a.drop j0) := hcond
          show rcpl bpop (a.drop j0) (a.drop j0) ≤ t.2.2
          omega
      have h2q : ∀ d, d < j0 → rcpl bpop (a.drop d) (a.drop d) ≤
          (flmStep bpop a a t (j0, j0)).2.2 :=
        fun d hd => le_trans (h2 d hd) hmono
      have hrec := ih (j0 + 1) (flmStep bpop a a t (j0, j0)) hdiag h2q (fun _ => hge)
      exact ⟨hrec.1, hrec.2.1, fun _ => hrec.2.2 (by omega)⟩
    · have hnu : flmStep bpop a a t (i, j0) = t :=
        flmStep_no_update bpop a a t (i, j0)
          (le_trans (rcpl_le_diag_left bpop _ _) (h3 hj))
      rw [hnu]
      have hrec := ih (j0 + 1) t h1 h2 (fun _ => h3 hj)
      exact ⟨hrec.1, hrec.2.1, fun _ => hrec.2.2 (by omega)⟩

theorem flm_row_diag_range (bpop a : List Char) (i : Nat) (t : Nat × Nat × Nat)
    (h1 : t.1 = t.2.1)
    (h2 : ∀ d, d < i → rcpl bpop (a.drop d) (a.drop d) ≤ t.2.2) :
    ((List.range a.length).foldl (fun acc j => flmStep bpop a a acc (i, j)) t).1 =
      ((List.range a.length).foldl (fun acc j => flmStep bpop a a acc (i, j)) t).2.1 ∧
    (∀ d, d < i → rcpl bpop (a.drop d) (a.drop d) ≤
      ((List.range a.length).foldl (fun acc j => flmStep bpop a a acc (i, j)) t).2.2) ∧
    (i < a.length → rcpl bpop (a.drop i) (a.drop i) ≤
      ((List.range a.length).foldl (fun acc j => flmStep bpop a a acc (i, j)) t).2.2) := by
  rw [List.range_eq_range']
  have h := flm_row_diag bpop a i a.length 0 t h1 h2 (fun hi => absurd hi (by omega))
  exact ⟨h.1, h.2.1, fun hl => h.2.2 (by omega)⟩

theorem flm_outer_diag (bpop a : List Char) :
    ∀ (cnt i0 : Nat) (t : Nat × Nat × Nat),
      i0 + cnt ≤ a.length →
      t.1 = t.2.1 →
      (∀ d, d < i0 → rcpl bpop (a.drop d) (a.drop d) ≤ t.2.2) →
      ((List.range' i0 cnt).foldl
        (fun acc i => (List.range a.length).foldl
          (fun acc2 j => flmStep bpop a a acc2 (i, j)) acc) t).1 =
      ((List.range' i0 cnt).foldl
        (fun acc i => (List.range a.length).foldl
          (fun acc2 j => flmStep bpop a a acc2 (i, j)) acc) t).2.1 := by
  intro cnt
  induction cnt with
  | zero => intro i0 t _ h1 _; exact h1
  | succ cnt ih =>
    intro i0 t hb h1 h2
    rw [List.range'_succ, List.foldl_cons]
    have hrow := flm_row_diag_range bpop a i0 t h1 h2
    refine ih (i0 + 1) _ (by omega) hrow.1 ?_
    intro d hd
    rcases Nat.lt_or_ge d i0 with hdi | hdi
    · exact hrow.2.1 d hdi
    · have hdeq : d = i0 := by omega
      subst hdeq
      exact hrow.2.2 (by omega)

theorem flmCore_self_diag (bpop a : List Char) :
    (flmCore bpop a a).1 = (flmCore bpop a a).2.1 := by
  have hrw : flmCore bpop a a =
      (List.range' 0 a.length).foldl
        (fun acc i => (List.range a.length).foldl
          (fun acc2 j => flmStep bpop a a acc2 (i, j)) acc) (0, 0, 0) := by
    unfold flmCore flmPairs
    rw [foldl_flatMap]
    simp only [List.foldl_map]
    rw [List.range_eq_range']
  rw [hrw]
  exact flm_outer_diag bpop a a.length 0 (0, 0, 0) (by omega) rfl
    (fun d hd => absurd hd (by omega))

theorem flm_self (bpop a : List Char) : findLongestMatch bpop a a = (0, 0, a.length) := by
  obtain ⟨hc1, hc2, hc3⟩ := flmCore_spec bpop a a
  have hdiag := flmCore_self_diag bpop a
  rcases hc : flmCore bpop a a with ⟨i, j, k⟩
  rw [hc] at hc1 hc2 hc3 hdiag
  have hij : i = j := hdiag
  subst hij
  have h1 : i + k ≤ a.length := hc1
  unfold findLongestMatch extendMatch
  rw [hc]
  show (i - commonSuffixLen (a.take i) (a.take i),
      i - commonSuffixLen (a.take i) (a.take i),
      k + commonSuffixLen (a.take i) (a.take i)
        + commonPrefixLen (a.drop (i + k)) (a.drop (i + k))) = (0, 0, a.length)
  have hcsl : commonSuffixLen (a.take i) (a.take i) = i := by
    rw [csl_self, List.length_take]
    omega
  have hcpl : commonPrefixLen (a.drop (i + k)) (a.drop (i + k)) = a.length - (i + k) := by
    rw [cpl_self, List.length_drop]
  rw [hcsl, hcpl]
  have hz : i - i = 0 := by omega
  have hk : k + i + (a.length - (i + k)) = a.length := by omega
  rw [hz, hk]

/-! ### difflib lemmas: the total matched size against the quick bounds -/

theorem matchTotalF_nil (bpop : List Char) (fuel : Nat) (b : List Char) :
    matchTotalF bpop fuel [] b = 0 := by
  cases fuel <;> rfl

theorem qm_eq (a b : List Char) :
    quickMatches a b = Multiset.card ((a : Multiset Char) ∩ (b : Multiset Char)) := by
  unfold quickMatches
  rw [Multiset.coe_inter, Multiset.coe_card]

theorem qm_le_left (a b : List Char) : quickMatches a b ≤ a.length := by
  rw [qm_eq]
  have h := Multiset.card_le_card (Multiset.inter_le_left (a : Multiset Char) b)
  rwa [Multiset.coe_card] at h

theorem qm_le_right (a b : List Char) : quickMatches a b ≤ b.length := by
  rw [qm_eq]
  have h := Multiset.card_le_card (Multiset.inter_le_right (a : Multiset Char) b)
  rwa [Multiset.coe_card] at h

theorem inter_self_multiset (s : Multiset Char) : s ∩ s = s :=
  le_antisymm (Multiset.inter_le_left s s) (Multiset.le_inter (le_refl s) (le_refl s))

theorem qm_self (a : List Char) : quickMatches a a = a.length := by
  rw [qm_eq, inter_self_multiset, Multiset.coe_card]

theorem inter_add_superadd (s₁ s₂ t₁ t₂ : Multiset Char) :
    (s₁ ∩ t₁) + (s₂ ∩ t₂) ≤ (s₁ + s₂) ∩ (t₁ + t₂) := by
  rw [Multiset.le_iff_count]
  intro x
  simp only [Multiset.count_add, Multiset.count_inter]
  omega

theorem qm_superadd (x y u v s : List Char) :
    quickMatches x u + s.length + quickMatches y v ≤
      quickMatches (x ++ (s ++ y)) (u ++ (s ++ v)) := by
  rw [qm_eq, qm_eq, qm_eq]
  have hx : ((x ++ (s ++ y) : List Char) : Multiset Char) =
      (x : Multiset Char) + ((s : Multiset Char) + (y : Multiset Char)) := by
    rw [Multiset.coe_add, Multiset.coe_add]
  have hu : ((u ++ (s ++ v) : List Char) : Multiset Char) =
      (u : Multiset Char) + ((s : Multiset Char) + (v : Multiset Char)) := by
    rw [Multiset.coe_add, Multiset.coe_add]
  rw [hx, hu]
  have step1 : ((s : Multiset Char) ∩ s) + ((y : Multiset Char) ∩ v) ≤
      ((s : Multiset Char) + y) ∩ ((s : Multiset Char) + v) :=
    inter_add_superadd _ _ _ _
  have step2 : ((x : Multiset Char) ∩ u) + (((s : Multiset Char) + y) ∩ ((s : Multiset Char) + v)) ≤
      ((x : Multiset Char) + ((s : Multiset Char) + y)) ∩
        ((u : Multiset Char) + ((s : Multiset Char) + v)) :=
    inter_add_superadd _ _ _ _
  have hchain : ((x : Multiset Char) ∩ u) + (((s : Multiset Char) ∩ s) + ((y : Multiset Char) ∩ v)) ≤
      ((x : Multiset Char) + ((s : Multiset Char) + y)) ∩
        ((u : Multiset Char) + ((s : Multiset Char) + v)) :=
    le_trans (add_le_add_left step1 _) step2
  have hcard := Multiset.card_le_card hchain
  rw [Multiset.card_add, Multiset.card_add, inter_self_multiset, Multiset.coe_card] at hcard
  omega

theorem list_decomp (a : List Char) (i k : Nat) :
    a = a.take i ++ ((a.drop i).take k ++ a.drop (i + k)) := by
  have h := List.take_append_drop k (a.drop i)
  rw [List.drop_drop] at h
  conv_lhs => rw [← List.take_append_drop i a, ← h]

theorem matchTotalF_le_quick (bpop : List Char) :
    ∀ (fuel : Nat) (a b : List Char), matchTotalF bpop fuel a b ≤ quickMatches a b := by
  intro fuel
  induction fuel with
  | zero => intro a b; exact Nat.zero_le _
  | succ fuel ih =>
    intro a b
    rcases hr : findLongestMatch bpop a b with ⟨i, j, k⟩
    simp only [matchTotalF, hr]
    split
    · exact Nat.zero_le _
    · have hspec := flm_spec bpop a b
      rw [hr] at hspec
      have h1 : i + k ≤ a.length := hspec.1
      have h2 : j + k ≤ b.length := hspec.2.1
      have h3 : k ≤ commonPrefixLen (a.drop i) (b.drop j) := hspec.2.2
      show k + matchTotalF bpop fuel (a.take i) (b.take j)
          + matchTotalF bpop fuel (a.drop (i + k)) (b.drop (j + k)) ≤ quickMatches a b
      have hseg : (a.drop i).take k = (b.drop j).take k :=
        cpl_take k _ _ h3
      have ha : (a.take i ++ ((a.drop i).take k ++ a.drop (i + k))) = a :=
        (list_decomp a i k).symm
      have hb : (b.take j ++ ((a.drop i).take k ++ b.drop (j + k))) = b := by
        rw [hseg]
        exact (list_decomp b j k).symm
      have hqm := qm_superadd (a.take i) (a.drop (i + k)) (b.take j) (b.drop (j + k))
        ((a.drop i).take k)
      rw [ha, hb] at hqm
      have hlen : ((a.drop i).take k).length = k := by
        rw [List.length_take, List.length_drop]
        omega
      rw [hlen] at hqm
      have ihl := ih (a.take i) (b.take j)
      have ihr := ih (a.drop (i + k)) (b.drop (j + k))
      omega

theorem matchTotalF_le_left (bpop : List Char) (fuel : Nat) (a b : List Char) :
    matchTotalF bpop fuel a b ≤ a.length :=
  le_trans (matchTotalF_le_quick bpop fuel a b) (qm_le_left a b)

theorem matchTotalF_le_right (bpop : List Char) (fuel : Nat) (a b : List Char) :
    matchTotalF bpop fuel a b ≤ b.length :=
  le_trans (matchTotalF_le_quick bpop fuel a b) (qm_le_right a b)

theorem matchTotalF_self (bpop : List Char) :
    ∀ (fuel : Nat) (a : List Char), a.length ≤ fuel → matchTotalF bpop fuel a a = a.length := by
  intro fuel
  induction fuel with
  | zero =>
    intro a ha
    have : a.length = 0 := by omega
    rw [this]
    rfl
  | succ fuel ih =>
    intro a ha
    by_cases hnil : a = []
    · rw [hnil, matchTotalF_nil]
      rfl
    · have hflm := flm_self bpop a
      simp only [matchTotalF, hflm]
      have hpos : 0 < a.length := List.length_pos.mpr hnil
      rw [if_neg (show ¬ (0, 0, a.length).2.2 = 0 from by
        show ¬ a.length = 0
        omega)]
      show a.length + matchTotalF bpop fuel (a.take 0) (a.take 0)
          + matchTotalF bpop fuel (a.drop (0 + a.length)) (a.drop (0 + a.length)) = a.length
      rw [List.take_zero, matchTotalF_nil]
      have : a.drop (0 + a.length) = [] := by
        rw [Nat.zero_add, List.drop_length]
      rw [this, matchTotalF_nil]
      omega

theorem matchTotalF_eq_of_double (bpop : List Char) :
    ∀ (fuel : Nat) (a b : List Char), a.length ≤ fuel →
      2 * matchTotalF bpop fuel a b = a.length + b.length → a = b := by
  intro fuel
  induction fuel with
  | zero =>
    intro a b ha heq
    have hz : matchTotalF bpop 0 a b = 0 := rfl
    rw [hz] at heq
    have ha0 : a = [] := List.length_eq_zero.mp (by omega)
    have hb0 : b = [] := List.length_eq_zero.mp (by omega)
    rw [ha0, hb0]
  | succ fuel ih =>
    intro a b ha heq
    rcases hr : findLongestMatch bpop a b with ⟨i, j, k⟩
    simp only [matchTotalF, hr] at heq
    by_cases hk : k = 0
    · rw [if_pos (by simpa using hk)] at heq
      have ha0 : a = [] := List.length_eq_zero.mp (by omega)
      have hb0 : b = [] := List.length_eq_zero.mp (by omega)
      rw [ha0, hb0]
    · rw [if_neg (by simpa using hk)] at heq
      have heq' : 2 * (k + matchTotalF bpop fuel (a.take i) (b.take j)
          + matchTotalF bpop fuel (a.drop (i + k)) (b.drop (j + k))) = a.length + b.length := heq
      have hspec := flm_spec bpop a b
      rw [hr] at hspec
      have h1 : i + k ≤ a.length := hspec.1
      have h2 : j + k ≤ b.length := hspec.2.1
      have h3 : k ≤ commonPrefixLen (a.drop i) (b.drop j) := hspec.2.2
      have hlt1 : (a.take i).length = i := by
        rw [List.length_take]
        omega
      have hlt2 : (b.take j).length = j := by
        rw [List.length_take]
        omega
      have hld1 : (a.drop (i + k)).length = a.length - (i + k) := List.length_drop _ _
      have hld2 : (b.drop (j + k)).length = b.length - (j + k) := List.length_drop _ _
      have hml1 := matchTotalF_le_left bpop fuel (a.take i) (b.take j)
      have hml2 := matchTotalF_le_right bpop fuel (a.take i) (b.take j)
      have hmr1 := matchTotalF_le_left bpop fuel (a.drop (i + k)) (b.drop (j + k))
      have hmr2 := matchTotalF_le_right bpop fuel (a.drop (i + k)) (b.drop (j + k))
      rw [hlt1] at hml1
      rw [hlt2] at hml2
      rw [hld1] at hmr1
      rw [hld2] at hmr2
      have hte : a.take i = b.take j := by
        refine ih (a.take i) (b.take j) (by omega) ?_
        rw [hlt1, hlt2]
        omega
      have hde : a.drop (i + k) = b.drop (j + k) := by
        refine ih (a.drop (i + k)) (b.drop (j + k)) (by omega) ?_
        rw [hld1, hld2]
        omega
      have hseg : (a.drop i).take k = (b.drop j).take k := cpl_take k _ _ h3
      calc a = a.take i ++ ((a.drop i).take k ++ a.drop (i + k)) := list_decomp a i k
        _ = b.take j ++ ((b.drop j).take k ++ b.drop (j + k)) := by
            rw [hte, hseg, hde]
        _ = b := (list_decomp b j k).symm

/-! ### difflib lemmas: ratio values -/

theorem matchTotal_self (a : List Char) : matchTotal a a = a.length :=
  matchTotalF_self (bPopular a) a.length a (le_refl _)

theorem matchTotal_le_left (a b : List Char) : matchTotal a b ≤ a.length :=
  matchTotalF_le_left (bPopular b) a.length a b

theorem matchTotal_le_right (a b : List Char) : matchTotal a b ≤ b.length :=
  matchTotalF_le_right (bPopular b) a.length a b

theorem matchTotal_le_quick (a b : List Char) : matchTotal a b ≤ quickMatches a b :=
  matchTotalF_le_quick (bPopular b) a.length a b

theorem matchTotal_eq_of_double (a b : List Char)
    (h : 2 * matchTotal a b = a.length + b.length) : a = b :=
  matchTotalF_eq_of_double (bPopular b) a.length a b (le_refl _) h

theorem calcRatioQ_half (n : Nat) : calcRatioQ n (n + n) = 1 := by
  unfold calcRatioQ
  split_ifs with ht
  · have hn : n ≠ 0 := by omega
    rw [show ((n + n : Nat) : ℚ) = 2 * (n : ℚ) by push_cast; ring]
    rw [div_self]
    have : (n : ℚ) ≠ 0 := Nat.cast_ne_zero.mpr hn
    positivity
  · rfl

theorem calcRatioQ_le_one (m t : Nat) (h : 2 * m ≤ t) : calcRatioQ m t ≤ 1 := by
  unfold calcRatioQ
  split_ifs with ht
  · have htp : (0 : ℚ) < (t : ℚ) := by
      exact_mod_cast Nat.pos_of_ne_zero ht
    rw [div_le_one htp]
    calc 2 * (m : ℚ) = ((2 * m : Nat) : ℚ) := by push_cast; ring
      _ ≤ (t : ℚ) := Nat.cast_le.mpr h
  · exact le_refl 1

theorem calcRatioQ_mono (m₁ m₂ t : Nat) (h : m₁ ≤ m₂) :
    calcRatioQ m₁ t ≤ calcRatioQ m₂ t := by
  unfold calcRatioQ
  split_ifs with ht
  · have htp : (0 : ℚ) < (t : ℚ) := by
      exact_mod_cast Nat.pos_of_ne_zero ht
    have hm : (m₁ : ℚ) ≤ (m₂ : ℚ) := Nat.cast_le.mpr h
    gcongr
  · exact le_refl 1

theorem ratioQ_self (a : List Char) : ratioQ a a = 1 := by
  unfold ratioQ
  rw [matchTotal_self]
  exact calcRatioQ_half a.length

theorem quickRatioQ_self (a : List Char) : quickRatioQ a a = 1 := by
  unfold quickRatioQ
  rw [qm_self]
  exact calcRatioQ_half a.length

theorem realQuickRatioQ_self (a : List Char) : realQuickRatioQ a a = 1 := by
  unfold realQuickRatioQ
  rw [min_self]
  exact calcRatioQ_half a.length

theorem ratioQ_le_one (a b : List Char) : ratioQ a b ≤ 1 := by
  refine calcRatioQ_le_one _ _ ?_
  have h1 := matchTotal_le_left a b
  have h2 := matchTotal_le_right a b
  omega

theorem ratioQ_le_quickRatioQ (a b : List Char) : ratioQ a b ≤ quickRatioQ a b :=
  calcRatioQ_mono _ _ _ (matchTotal_le_quick a b)

theorem quickRatioQ_le_realQuickRatioQ (a b : List Char) :
    quickRatioQ a b ≤ realQuickRatioQ a b :=
  calcRatioQ_mono _ _ _ (le_min (qm_le_left a b) (qm_le_right a b))

theorem ratioQ_eq_one_imp (a b : List Char) (h : ratioQ a b = 1) : a = b := by
  by_cases ht : a.length + b.length = 0
  · have ha : a = [] := List.length_eq_zero.mp (by omega)
    have hb : b = [] := List.length_eq_zero.mp (by omega)
    rw [ha, hb]
  · unfold ratioQ calcRatioQ at h
    rw [if_pos ht] at h
    have hT : ((a.length + b.length : Nat) : ℚ) ≠ 0 := Nat.cast_ne_zero.mpr ht
    rw [div_eq_one_iff_eq hT] at h
    have hnat : 2 * matchTotal a b = a.length + b.length := by
      exact_mod_cast h
    exact matchTotal_eq_of_double a b hnat

/-! ### matcher lemmas: the filter and the selection of the best tuple -/

theorem accepted_iff (w x : String) :
    (faqCutoff ≤ realQuickRatioQ x.data w.data ∧ faqCutoff ≤ quickRatioQ x.data w.data ∧
      faqCutoff ≤ ratioQ x.data w.data) ↔ faqCutoff ≤ ratioQ x.data w.data :=
  ⟨fun h => h.2.2, fun h =>
    ⟨le_trans h (le_trans (ratioQ_le_quickRatioQ _ _) (quickRatioQ_le_realQuickRatioQ _ _)),
      le_trans h (ratioQ_le_quickRatioQ _ _), h⟩⟩

theorem mem_scoreCandidates (w : String) (poss : List String) (p : ℚ × String) :
    p ∈ scoreCandidates w poss ↔
      p.2 ∈ poss ∧ faqCutoff ≤ ratioS p.2 w ∧ p.1 = ratioS p.2 w := by
  unfold scoreCandidates
  rw [List.mem_filterMap]
  constructor
  · rintro ⟨x, hx, hfx⟩
    split_ifs at hfx with hc
    · have hp : (ratioQ x.data w.data, x) = p := by
        simpa using hfx
      rw [← hp]
      exact ⟨hx, hc.2.2, rfl⟩
  · rintro ⟨hmem, hr, hp⟩
    refine ⟨p.2, hmem, ?_⟩
    rw [if_pos ((accepted_iff w p.2).mpr hr)]
    rw [show ratioQ p.2.data w.data = p.1 from hp.symm]

theorem pairLe_refl (p : ℚ × String) : pairLe p p := Or.inl rfl

theorem pair_trichotomy (p q : ℚ × String) : pairLt p q ∨ p = q ∨ pairLt q p := by
  rcases lt_trichotomy p.1 q.1 with h | h | h
  · exact Or.inl (Or.inl h)
  · rcases lt_trichotomy p.2 q.2 with hs | hs | hs
    · exact Or.inl (Or.inr ⟨h, (strLt_iff _ _).mpr hs⟩)
    · exact Or.inr (Or.inl (Prod.ext h hs))
    · exact Or.inr (Or.inr (Or.inr ⟨h.symm, (strLt_iff _ _).mpr hs⟩))
  · exact Or.inr (Or.inr (Or.inl h))

theorem pairLt_trans {p q r : ℚ × String} (h1 : pairLt p q) (h2 : pairLt q r) : pairLt p r := by
  rcases h1 with h1 | ⟨e1, s1⟩
  · rcases h2 with h2 | ⟨e2, s2⟩
    · exact Or.inl (lt_trans h1 h2)
    · exact Or.inl (e2 ▸ h1)
  · rcases h2 with h2 | ⟨e2, s2⟩
    · exact Or.inl (by rw [e1]; exact h2)
    · refine Or.inr ⟨e1.trans e2, ?_⟩
      rw [strLt_iff] at s1 s2 ⊢
      exact lt_trans s1 s2

theorem pairLe_trans {p q r : ℚ × String} (h1 : pairLe p q) (h2 : pairLe q r) : pairLe p r := by
  rcases h1 with rfl | h1
  · exact h2
  · rcases h2 with rfl | h2
    · exact Or.inr h1
    · exact Or.inr (pairLt_trans h1 h2)

theorem foldl_pick_mem : ∀ (l : List (ℚ × String)) (acc : ℚ × String),
    l.foldl (fun b q => if pairLt b q then q else b) acc ∈ acc :: l := by
  intro l
  induction l with
  | nil => intro acc; simp
  | cons r l ih =>
    intro acc
    rw [List.foldl_cons]
    rcases List.mem_cons.mp (ih (if pairLt acc r then r else acc)) with heq | hmem
    · rw [heq]
      split_ifs
      · simp
      · simp
    · simp [hmem]

theorem foldl_pick_ge : ∀ (l : List (ℚ × String)) (acc : ℚ × String),
    pairLe acc (l.foldl (fun b q => if pairLt b q then q else b) acc) ∧
    ∀ x ∈ l, pairLe x (l.foldl (fun b q => if pairLt b q then q else b) acc) := by
  intro l
  induction l with
  | nil =>
    intro acc
    exact ⟨pairLe_refl acc, by simp⟩
  | cons r l ih =>
    intro acc
    rw [List.foldl_cons]
    obtain ⟨ha, hl⟩ := ih (if pairLt acc r then r else acc)
    have hacc : pairLe acc (if pairLt acc r then r else acc) := by
      split_ifs with h
      · exact Or.inr h
      · exact pairLe_refl acc
    have hr : pairLe r (if pairLt acc r then r else acc) := by
      split_ifs with h
      · exact pairLe_refl r
      · rcases pair_trichotomy r acc with h1 | h1 | h1
        · exact Or.inr h1
        · exact Or.inl h1
        · exact absurd h1 h
    refine ⟨pairLe_trans hacc ha, fun x hx => ?_⟩
    rcases List.mem_cons.mp hx with rfl | hx'
    · exact pairLe_trans hr ha
    · exact hl x hx'

theorem pickBest_spec (l : List (ℚ × String)) (p : ℚ × String) (h : pickBest l = some p) :
    p ∈ l ∧ ∀ x ∈ l, pairLe x p := by
  cases l with
  | nil => simp [pickBest] at h
  | cons r l =>
    have hp : l.foldl (fun b q => if pairLt b q then q else b) r = p := by
      simpa [pickBest] using h
    constructor
    · rw [← hp]
      exact foldl_pick_mem l r
    · intro x hx
      obtain ⟨ha, hl⟩ := foldl_pick_ge l r
      rw [← hp]
      rcases List.mem_cons.mp hx with rfl | hx'
      · exact ha
      · exact hl x hx'

theorem getCloseMatches1_spec (w : String) (poss : List String) :
    (∀ m, getCloseMatches1 w poss = some m →
      m ∈ poss ∧ faqCutoff ≤ ratioS m w ∧
      ∀ x ∈ poss, faqCutoff ≤ ratioS x w →
        pairLe (ratioS x w, x) (ratioS m w, m)) ∧
    ((∀ x ∈ poss, ¬ faqCutoff ≤ ratioS x w) → getCloseMatches1 w poss = none) ∧
    ((∃ x ∈ poss, faqCutoff ≤ ratioS x w) → ∃ m, getCloseMatches1 w poss = some m) := by
  refine ⟨fun m hm => ?_, fun hnone => ?_, fun hex => ?_⟩
  · unfold getCloseMatches1 at hm
    rw [Option.map_eq_some'] at hm
    obtain ⟨p, hp, hpm⟩ := hm
    obtain ⟨hmem, hdom⟩ := pickBest_spec _ p hp
    rw [mem_scoreCandidates] at hmem
    obtain ⟨hin, hcut, hfst⟩ := hmem
    have hpm' : p = (ratioS m w, m) := by
      refine Prod.ext ?_ hpm
      rw [hfst, hpm]
    refine ⟨hpm ▸ hin, hpm ▸ hcut, fun x hx hxr => ?_⟩
    have hxmem : ((ratioS x w, x) : ℚ × String) ∈ scoreCandidates w poss := by
      rw [mem_scoreCandidates]
      exact ⟨hx, hxr, rfl⟩
    have := hdom _ hxmem
    rwa [hpm'] at this
  · have hempty : scoreCandidates w poss = [] := by
      unfold scoreCandidates
      rw [List.filterMap_eq_nil_iff]
      intro x hx
      rw [if_neg]
      intro hc
      exact hnone x hx ((accepted_iff w x).mp hc)
    unfold getCloseMatches1
    rw [hempty]
    rfl
  · obtain ⟨x, hx, hxr⟩ := hex
    have hxmem : ((ratioS x w, x) : ℚ × String) ∈ scoreCandidates w poss := by
      rw [mem_scoreCandidates]
      exact ⟨hx, hxr, rfl⟩
    have hne := List.ne_nil_of_mem hxmem
    unfold getCloseMatches1
    cases hc : scoreCandidates w poss with
    | nil => exact absurd hc hne
    | cons r rest => exact ⟨_, rfl⟩

theorem ratioS_self (q : String) : ratioS q q = 1 :=
  ratioQ_self q.data

theorem ratioS_le_one (x w : String) : ratioS x w ≤ 1 :=
  ratioQ_le_one x.data w.data

theorem ratioS_eq_one_imp (x w : String) (h : ratioS x w = 1) : x = w :=
  String.ext_iff.mpr (ratioQ_eq_one_imp x.data w.data h)

theorem faqCutoff_le_one : faqCutoff ≤ 1 := by
  unfold faqCutoff
  norm_num

theorem strLt_irrefl (s : String) (h : strLt s s) : False :=
  lt_irrefl s ((strLt_iff s s).mp h)

/-- C7 (amended): get_faq_answer lower-cases and trims the question, keeps
a stored question only when its similarity ratio to the input reaches the
0.6 cutoff, and returns the answer of the stored question maximizing the
(ratio, question-string) pair under Python tuple comparison: ties in ratio
are broken by the lexicographically greater stored question, not by stored
order.  An exact-text match still returns its exact stored answer (ratio 1
is attained only by the identical question), and when no stored question
reaches the cutoff the fixed fallback error dict is returned. -/
theorem faq_answer_spec (store : List (String × String)) (question : String) :
    (∀ m, getCloseMatches1 (pyNormalize question) (store.map Prod.fst) = some m →
      m ∈ store.map Prod.fst ∧
      faqCutoff ≤ ratioS m (pyNormalize question) ∧
      get_faq_answer store question = ⟨"success", dictGet store m, none⟩ ∧
      ∀ x ∈ store.map Prod.fst, faqCutoff ≤ ratioS x (pyNormalize question) →
        pairLe (ratioS x (pyNormalize question), x) (ratioS m (pyNormalize question), m)) ∧
    ((∀ x ∈ store.map Prod.fst, ¬ faqCutoff ≤ ratioS x (pyNormalize question)) →
      get_faq_answer store question = ⟨"error", none, some faqFallback⟩) ∧
    ((∃ x ∈ store.map Prod.fst, faqCutoff ≤ ratioS x (pyNormalize question)) →
      (get_faq_answer store question).status = "success") ∧
    (pyNormalize question ∈ store.map Prod.fst →
      get_faq_answer store question =
        ⟨"success", dictGet store (pyNormalize question), none⟩) := by
  obtain ⟨hsome, hnone, hex⟩ := getCloseMatches1_spec (pyNormalize question) (store.map Prod.fst)
  refine ⟨fun m hm => ?_, fun hn => ?_, fun he => ?_, fun hq => ?_⟩
  · obtain ⟨hin, hcut, hdom⟩ := hsome m hm
    refine ⟨hin, hcut, ?_, hdom⟩
    simp only [get_faq_answer, hm]
  · simp only [get_faq_answer, hnone hn]
  · obtain ⟨m, hm⟩ := hex he
    simp only [get_faq_answer, hm]
  · have hqacc : faqCutoff ≤ ratioS (pyNormalize question) (pyNormalize question) := by
      rw [ratioS_self]
      exact faqCutoff_le_one
    obtain ⟨m, hm⟩ := hex ⟨pyNormalize question, hq, hqacc⟩
    obtain ⟨hin, hcut, hdom⟩ := hsome m hm
    have hd := hdom (pyNormalize question) hq hqacc
    have hmq : m = pyNormalize question := by
      rcases hd with heq | hlt
      · exact (congrArg Prod.snd heq).symm
      · rcases hlt with hlt | ⟨heq, hslt⟩
        · rw [ratioS_self] at hlt
          exact absurd hlt (not_lt.mpr (ratioS_le_one m (pyNormalize question)))
        · rw [ratioS_self] at heq
          have hm1 : m = pyNormalize question :=
            ratioS_eq_one_imp m (pyNormalize question) heq.symm
          exact hm1
    rw [hmq] at hm
    simp only [get_faq_answer, hm]

/-- C7 witness: an exact-text match of the stored question returns its
exact stored answer. -/
theorem faq_answer_spec_witness :
    (get_faq_answer [("hello", "Hi!")] "Hello ").answer = some "Hi!" := by
  rw [(faq_answer_spec [("hello", "Hi!")] "Hello ").2.2.2 (by decide)]
  decide

section

set_option maxRecDepth 8000

attribute [local semireducible] Rat.mul Rat.inv

/-- C7 counterexample: the stored questions abd (stored first, answer A1)
and abe (stored second, answer A2) tie at ratio 2/3 against the input abc,
both above the cutoff; the claimed first-encountered tie-break would
return A1, but the code compares (ratio, question) tuples and returns A2,
the answer of the lexicographically greater question. -/
theorem faq_tie_break_counterexample :
    ratioS "abd" "abc" = ratioS "abe" "abc" ∧
    faqCutoff ≤ ratioS "abd" "abc" ∧
    get_faq_answer [("abd", "A1"), ("abe", "A2")] "abc" =
      ⟨"success", some "A2", none⟩ ∧
    (get_faq_answer [("abd", "A1"), ("abe", "A2")] "abc").answer ≠ some "A1" := by
  decide

end

end DSF
